import Mathlib

/-!
Verification of the natural-language specification of `kombine`
(`src/kombine/clustered_kde.py`) against the code, via a shallow embedding.

The source has three classes:

* `KDE`            — single-cluster Gaussian kernel density estimator;
* `ClusteredKDE`   — whitens the sample, k-means clusters it, builds one KDE
                     per cluster and mixes them by cluster weights;
* `OptimizedKDE`   — greedy BIC search over the number of clusters k.

Exact real numbers (`ℝ`) stand for floating point where the code computes
with `log`, `exp`, `sqrt` and `π`; exact rationals (`ℚ`) stand for floating
point in the purely arithmetic parts (comparisons, cumulative sums,
whitening algebra), where no transcendental function occurs.  Where IEEE
non-finite results (NaN/inf from division by a zero standard deviation) are
the very point of a claim, values are modelled as `Option ℝ` with `none`
standing for a non-finite float.
-/

namespace Kombine

/-! ## OptimizedKDE: greedy BIC search (`OptimizedKDE.__init__`)

The Python loop is

    best_bic = -np.inf ; best_kde = None ; k = 1
    while True:
        kde = ClusteredKDE(data, k, pool) ; bic = kde.bic()
        if (bic > best_bic): best_kde = kde ; best_bic = bic
        else: break
        k += 1
    self.kde = best_kde

The BIC of the model built at cluster count k is abstracted as a function
`bic : ℕ → ℚ` (the model itself is identified by its k).  `best_bic` starts
at -∞, modelled by `Score.negInf`; `best_kde` starts at `None`, modelled by
`Option ℕ` (the k of the adopted model).  The loop is given fuel; a run that
exhausts its fuel returns `none` ("the search did not complete"). -/

/-- Score of the best model so far: `-np.inf` initially, then a finite BIC. -/
inductive Score where
  | negInf : Score
  | fin : ℚ → Score
deriving DecidableEq

/-- The Python comparison `bic > best_bic`, with `best_bic` possibly `-inf`. -/
def Score.improvedBy : Score → ℚ → Bool
  | .negInf, _ => true
  | .fin b, q => decide (b < q)

/-- One state of the `OptimizedKDE.__init__` loop: remaining fuel, current
`best_bic`, current `best_kde` (the k it was built with), current k. -/
def optimizeLoop (bic : ℕ → ℚ) : ℕ → Score → Option ℕ → ℕ → Option (Option ℕ)
  | 0, _, _, _ => none
  | fuel + 1, bestBic, bestKde, k =>
    if Score.improvedBy bestBic (bic k) then
      optimizeLoop bic fuel (.fin (bic k)) (some k) (k + 1)
    else
      some bestKde

/-- `OptimizedKDE.__init__`: start at k = 1, best score -∞, best model None;
returns the k of the adopted model when the search completes within `fuel`
iterations. -/
def optimizedKDE (bic : ℕ → ℚ) (fuel : ℕ) : Option (Option ℕ) :=
  optimizeLoop bic fuel .negInf none 1

/-! ## ClusteredKDE.draw: cluster selection (`ClusteredKDE.draw`)

    cumulative_weights = np.cumsum(np.exp(self._logweights))
    clusters = np.searchsorted(cumulative_weights, np.random.rand(N))

`np.cumsum` of the exponentiated log-weights, and `np.searchsorted` with the
default side `left`, which returns the insertion index of `v`: the number of
entries of the (sorted) array strictly below `v`. -/

/-- `np.cumsum`: list of partial sums (first entry included). -/
def cumsum : List ℚ → List ℚ :=
  go 0
where
  /-- Accumulating helper for `cumsum`. -/
  go (acc : ℚ) : List ℚ → List ℚ
    | [] => []
    | x :: xs => (acc + x) :: go (acc + x) xs

/-- `np.searchsorted(a, v)` with the default `side` of `left`: the insertion
index of `v` in the sorted array `a`, i.e. the number of entries `< v`. -/
def searchsorted (a : List ℚ) (v : ℚ) : ℕ :=
  a.countP (fun t => decide (t < v))

/-- The cluster index chosen in `ClusteredKDE.draw` for a uniform draw `v`,
given the exponentiated log-weights `w`. -/
def assignCluster (w : List ℚ) (v : ℚ) : ℕ :=
  searchsorted (cumsum w) v

/-! ## ClusteredKDE whitening algebra (`_whiten`, `_color`)

    def _whiten(self, data): return (data - self._mean)/self._std
    def _color(self, data):  return data * self._std + self._mean

applied pointwise per dimension. -/

variable {D : ℕ}

/-- `ClusteredKDE._whiten` on one D-vector (exact arithmetic). -/
def whiten (mean std : Fin D → ℚ) (x : Fin D → ℚ) : Fin D → ℚ :=
  fun i => (x i - mean i) / std i

/-- `ClusteredKDE._color` on one D-vector (exact arithmetic). -/
def color (mean std : Fin D → ℚ) (x : Fin D → ℚ) : Fin D → ℚ :=
  fun i => x i * std i + mean i

/-- `ClusteredKDE.logpdf(X) = _whitened_logpdf(_whiten(X))`: whiten the query
points with the stored transform, then evaluate the whitened-space mixture
density `wpdf` (abstract here) on each. -/
def clusteredLogpdfVia (mean std : Fin D → ℚ) (wpdf : (Fin D → ℚ) → ℝ)
    (X : List (Fin D → ℚ)) : List ℝ :=
  X.map (fun x => wpdf (whiten mean std x))

/-- The final step of `ClusteredKDE.draw`: `return self._color(draws)` — the
per-cluster draws are produced in whitened space and colored on the way out. -/
def clusteredDraw (mean std : Fin D → ℚ) (whitenedDraws : List (Fin D → ℚ)) :
    List (Fin D → ℚ) :=
  whitenedDraws.map (color mean std)

/-! ## Cluster weights (`ClusteredKDE.__init__`, lines 78-79)

    self._logweights = np.log(
        [np.sum(self._assignments == c)/float(self._N) for c in range(k)])

The assignment array is a list of cluster ids; `np.sum(assignments == c)` is
the number of points assigned to cluster `c`. -/

/-- Log-weight of cluster `c`: `log(Nc / N)` where `Nc` is the number of
points the clustering assigned to `c` and `N` the total sample size. -/
noncomputable def logweight (assign : List ℕ) (c : ℕ) : ℝ :=
  Real.log ((assign.count c : ℝ) / (assign.length : ℝ))

/-! ## Mixture evaluation and BIC (`ClusteredKDE._whitened_logpdf`, `bic`) -/

/-- `scipy.misc.logsumexp`: `log (Σ exp xᵢ)` (the scipy routine computes
exactly this value, stabilized against overflow). -/
noncomputable def logsumexp (l : List ℝ) : ℝ :=
  Real.log (l.map Real.exp).sum

/-- `ClusteredKDE._whitened_logpdf` at one whitened point: combine the
per-cluster estimators as `logsumexp` of `logweight_c + kde_c(x)`, per

    logpdfs = [logweight + kde(X)
               for logweight, kde in zip(self._logweights, self._kdes)]
    return logsumexp(logpdfs, axis=0) -/
noncomputable def whitenedLogpdf (logweights : List ℝ)
    (kdes : List ((Fin D → ℝ) → ℝ)) (x : Fin D → ℝ) : ℝ :=
  logsumexp ((logweights.zip kdes).map (fun p => p.1 + p.2 x))

/-- `ClusteredKDE.bic()`:

    log_l = np.sum(self._whitened_logpdf(self._data))
    nparams = self._k * self._dim
    nparams += self._k - 1
    nparams += self._k * (self._dim + 1) * self._dim/2.0
    return log_l - nparams/2.0 * np.log(self._N)

`data` is the model's own whitened training sample (`self._data`), so
`self._N = data.length`; `k` and `dim` are the cluster count and dimension.
The Python integer subtraction `self._k - 1` is exact, hence `(k : ℝ) - 1`. -/
noncomputable def bic (data : List (Fin D → ℝ)) (logweights : List ℝ)
    (kdes : List ((Fin D → ℝ) → ℝ)) (k dim : ℕ) : ℝ :=
  let log_l := (data.map (whitenedLogpdf logweights kdes)).sum
  let nparams : ℝ := (k : ℝ) * (dim : ℝ) + ((k : ℝ) - 1) +
    (k : ℝ) * ((dim : ℝ) + 1) * (dim : ℝ) / 2
  log_l - nparams / 2 * Real.log (data.length : ℝ)

/-! ## KDE bandwidth and normalization (`KDE._set_bandwidth`)

    kernel_cov = self._cov * self._N ** (-2./(self._dim + 4))
    self._lognorm = np.log(
        self._N * np.sqrt((2*np.pi ** self._dim) * la.det(kernel_cov)))

Note the Python operator precedence in the second line: `**` binds tighter
than `*`, so `2*np.pi ** self._dim` is `2 · π^dim`, not `(2π)^dim`. -/

/-- Scott's rule: `H = Σ · N^(-2/(dim+4))` (real-exponent power, `np.power`
semantics on a positive base). -/
noncomputable def kernelCov {n : ℕ} (cov : Matrix (Fin n) (Fin n) ℝ)
    (N dim : ℕ) : Matrix (Fin n) (Fin n) ℝ :=
  ((N : ℝ) ^ ((-2 : ℝ) / ((dim : ℝ) + 4))) • cov

/-- The log-normalization constant the code stores, as a function of the
determinant of the kernel covariance: `log(N · sqrt(2 · π^dim · detH))`,
reflecting the source expression `2*np.pi ** self._dim`. -/
noncomputable def lognorm (N dim : ℕ) (detH : ℝ) : ℝ :=
  Real.log ((N : ℝ) * Real.sqrt ((2 * Real.pi ^ dim) * detH))

/-- Modelled from the spec: the log-normalization constant the specification
prescribes, `log(N · sqrt((2π)^dim · detH))` — the correct constant for a
mixture of `N` Gaussian kernels of covariance `H` to integrate to 1. -/
noncomputable def specLognorm (N dim : ℕ) (detH : ℝ) : ℝ :=
  Real.log ((N : ℝ) * Real.sqrt (((2 * Real.pi) ^ dim) * detH))

/-- `KDE._set_bandwidth` composed: the stored `_lognorm` of a KDE with
sample covariance `cov`, `N` points, dimension `dim`. -/
noncomputable def setBandwidthLognorm {n : ℕ} (cov : Matrix (Fin n) (Fin n) ℝ)
    (N dim : ℕ) : ℝ :=
  lognorm N dim (kernelCov cov N dim).det

/-! ## KDE sampling factor (`KDE._set_bandwidth` / `KDE.draw`)

    self._decomposed_kernel_cov = la.cholesky(kernel_cov)

`scipy.linalg.cholesky` defaults to `lower=False`: it returns the
upper-triangular factor `U` with `Uᵀ·U = H`.  Embedded concretely for 2×2
matrices (the closed form of the unique upper factor with positive
diagonal):

    draws = np.dot(self._decomposed_kernel_cov, X.T).T + self._data[kernels]

transforms each standard-normal row `z` of `X` into `U·z` plus a chosen
center, so the added noise is `U·z` with covariance `U·Uᵀ`. -/

/-- The upper-triangular Cholesky factor of a 2×2 positive-definite matrix,
as returned by `scipy.linalg.cholesky` with its default `lower=False`. -/
noncomputable def choleskyUpper (H : Matrix (Fin 2) (Fin 2) ℝ) :
    Matrix (Fin 2) (Fin 2) ℝ :=
  !![Real.sqrt (H 0 0), H 0 1 / Real.sqrt (H 0 0);
     0, Real.sqrt (H 1 1 - (H 0 1 / Real.sqrt (H 0 0)) ^ 2)]

/-- One row of `KDE.draw`: chosen kernel center plus the stored factor
applied to a standard-normal vector `z`. -/
noncomputable def drawRow (factor : Matrix (Fin 2) (Fin 2) ℝ)
    (center z : Fin 2 → ℝ) : Fin 2 → ℝ :=
  factor.mulVec z + center

/-- Covariance of the noise `A·z` added by `drawRow` when `z` is a vector of
independent standard normals: `A·Aᵀ`. -/
noncomputable def noiseCov (factor : Matrix (Fin 2) (Fin 2) ℝ) :
    Matrix (Fin 2) (Fin 2) ℝ :=
  factor * factor.transpose

/-! ## Whitening with IEEE division (`ClusteredKDE.__init__` / `_whiten`)

    self._mean = np.mean(data, axis=0)
    self._std = np.std(data, axis=0)
    self._data = self._whiten(data)

NumPy float division never raises: dividing by a zero standard deviation
yields a non-finite value (`0/0 = NaN`, here on a constant column where the
numerator `x - mean` is exactly zero).  `none` marks a non-finite result. -/

/-- `np.mean` of a column. -/
noncomputable def npMean (col : List ℝ) : ℝ :=
  col.sum / (col.length : ℝ)

/-- `np.std` of a column (population standard deviation, `ddof = 0`). -/
noncomputable def npStd (col : List ℝ) : ℝ :=
  Real.sqrt ((col.map (fun x => (x - npMean col) ^ 2)).sum / (col.length : ℝ))

/-- NumPy float division: total, with `none` marking the non-finite value
(NaN/inf) produced by a zero divisor instead of any raised failure. -/
noncomputable def fpDiv (a b : ℝ) : Option ℝ :=
  if b = 0 then none else some (a / b)

/-- `ClusteredKDE._whiten` on one column of the sample matrix, with IEEE
division semantics: `(data - mean) / std` entrywise. -/
noncomputable def whitenColFp (col : List ℝ) : List (Option ℝ) :=
  col.map (fun x => fpDiv (x - npMean col) (npStd col))

/-- `ClusteredKDE._whiten(data)` on the whole sample matrix, presented
column-by-column (whitening acts per dimension). -/
noncomputable def whitenMatrixFp (cols : List (List ℝ)) : List (List (Option ℝ)) :=
  cols.map whitenColFp

/-! ## Shape semantics of `logpdf` (`KDE.logpdf`, `ClusteredKDE.logpdf`)

`KDE.logpdf` starts with

    N, dim = X.shape
    assert dim == self._dim

`ClusteredKDE.logpdf` performs no check of its own: it whitens the query
with `(X - self._mean)/self._std`, which is NumPy broadcasting of an
`(M, Dq)` array against the stored `(D,)` vectors, and hands the result to
each per-cluster KDE (all of dimension `D`). -/

/-- A failure surfaced by `logpdf`: a NumPy broadcasting `ValueError`, or
the `AssertionError` of `KDE.logpdf`'s dimension check. -/
inductive ShapeErr where
  | broadcastErr : ShapeErr
  | assertErr : ShapeErr
deriving DecidableEq

/-- NumPy broadcasting of the trailing axes `(M, dq)` op `(dm,)`: the
column counts must be equal or one of them 1; the result has the larger
count. -/
def broadcastCols (dq dm : ℕ) : Option ℕ :=
  if dq = dm then some dm
  else if dq = 1 then some dm
  else if dm = 1 then some dq
  else none

/-- Shape of `ClusteredKDE._whiten(X)` for an `M × dq` query against stored
`D`-vectors: a subtraction broadcast then a division broadcast. -/
def whitenShape (D M dq : ℕ) : Except ShapeErr (ℕ × ℕ) :=
  match broadcastCols dq D with
  | some c =>
    match broadcastCols c D with
    | some c2 => .ok (M, c2)
    | none => .error .broadcastErr
  | none => .error .broadcastErr

/-- Shape behavior of `KDE.logpdf` on an `M × dq` query against a fitted
dimension `D`: the `assert dim == self._dim` check, then an `M`-vector. -/
def kdeLogpdfShape (D M dq : ℕ) : Except ShapeErr ℕ :=
  if dq = D then .ok M else .error .assertErr

/-- Shape behavior of `ClusteredKDE.logpdf`: whiten the query (broadcast),
then evaluate the per-cluster KDEs, each fitted on `D`-dimensional whitened
data. -/
def clusteredLogpdfShape (D M dq : ℕ) : Except ShapeErr ℕ :=
  match whitenShape D M dq with
  | .ok (m, c) => kdeLogpdfShape D m c
  | .error e => .error e

/-! ## Per-point evaluation and the worker pool (`KDE.logpdf`,
`_evaluate_point_logpdf`)

    if self._pool: M = self._pool.map
    else:          M = map
    args = [(x, self._data, self._cho_factor) for x in X]
    results = M(_evaluate_point_logpdf, args)
    return np.array(results) - self._lognorm

`_evaluate_point_logpdf((x, data, cho_factor))` computes, for each center
`cᵢ` in `data`, the quadratic form `(cᵢ-x)ᵗ H⁻¹ (cᵢ-x)` by solving with the
Cholesky factorization of the kernel covariance `H` (`cho_solve`), and
returns `logsumexp` of `-quadratic/2`.  The factorization is represented by
the matrix `H` it factors, and `cho_solve` by application of `H⁻¹`. -/

/-- The argument tuple packed for `_evaluate_point_logpdf`: query point,
kernel centers, kernel covariance (standing for its Cholesky
factorization). -/
def EvalArgs (d : ℕ) : Type :=
  (Fin d → ℝ) × List (Fin d → ℝ) × Matrix (Fin d) (Fin d) ℝ

/-- `_evaluate_point_logpdf(args)`. -/
noncomputable def evaluatePointLogpdf {d : ℕ} (args : EvalArgs d) : ℝ :=
  logsumexp (args.2.1.map (fun ci =>
    -(Matrix.dotProduct (ci - args.1) ((args.2.2)⁻¹.mulVec (ci - args.1)) / 2)))

/-- The type of the mapping strategy `M`: the builtin `map` or a worker
pool's order-preserving `map`. -/
def PoolMap (d : ℕ) : Type :=
  (EvalArgs d → ℝ) → List (EvalArgs d) → List ℝ

/-- The body of `KDE.logpdf` after the dispatch on `self._pool`, with the
chosen strategy `M` explicit. -/
noncomputable def kdeLogpdfWithMap {d : ℕ} (M : PoolMap d)
    (data : List (Fin d → ℝ)) (choFactor : Matrix (Fin d) (Fin d) ℝ)
    (lognormStored : ℝ) (X : List (Fin d → ℝ)) : List ℝ :=
  let args := X.map (fun x => ((x, data, choFactor) : EvalArgs d))
  let results := M evaluatePointLogpdf args
  results.map (fun r => r - lognormStored)

/-- `KDE.logpdf`: use the pool's `map` when a pool is present, the builtin
sequential `map` otherwise. -/
noncomputable def kdeLogpdf {d : ℕ} (pool : Option (PoolMap d))
    (data : List (Fin d → ℝ)) (choFactor : Matrix (Fin d) (Fin d) ℝ)
    (lognormStored : ℝ) (X : List (Fin d → ℝ)) : List ℝ :=
  kdeLogpdfWithMap (pool.getD List.map) data choFactor lognormStored X

end Kombine

namespace Kombine

/-! ### C4: the selector never returns a model with BIC below the k = 1 model -/

/-- Loop invariant of `optimizeLoop`: either we are in the initial state
(no model adopted yet, about to try k = 1), or the adopted model was built
at some k₀ with `bic 1 ≤ bic k₀` and `best_bic` is its score. -/
def OptimizeInv (bic : ℕ → ℚ) (bestBic : Score) (bestKde : Option ℕ) (k : ℕ) : Prop :=
  (bestBic = .negInf ∧ bestKde = none ∧ k = 1) ∨
    (∃ k₀, bestKde = some k₀ ∧ bestBic = .fin (bic k₀) ∧ bic 1 ≤ bic k₀)

theorem optimizeLoop_sound (bic : ℕ → ℚ) :
    ∀ (fuel : ℕ) (bestBic : Score) (bestKde : Option ℕ) (k : ℕ) (r : Option ℕ),
      OptimizeInv bic bestBic bestKde k →
      optimizeLoop bic fuel bestBic bestKde k = some r →
      ∃ k₀, r = some k₀ ∧ bic 1 ≤ bic k₀ := by
  intro fuel
  induction fuel with
  | zero => intro _ _ _ _ _ h; simp [optimizeLoop] at h
  | succ n ih =>
    intro bestBic bestKde k r hinv hrun
    rw [optimizeLoop] at hrun
    by_cases himp : Score.improvedBy bestBic (bic k) = true
    · rw [if_pos himp] at hrun
      refine ih (.fin (bic k)) (some k) (k + 1) r ?_ hrun
      rcases hinv with ⟨_, _, hk⟩ | ⟨k₀, _, hb, hle⟩
      · exact Or.inr ⟨k, rfl, rfl, by rw [hk]⟩
      · refine Or.inr ⟨k, rfl, rfl, le_of_lt (lt_of_le_of_lt hle ?_)⟩
        subst hb
        simpa [Score.improvedBy] using himp
    · rw [if_neg himp] at hrun
      rcases hinv with ⟨hb, _, _⟩ | ⟨k₀, hk₀, _, hle⟩
      · subst hb
        simp [Score.improvedBy] at himp
      · obtain rfl : bestKde = r := Option.some.inj hrun
        exact ⟨k₀, hk₀, hle⟩

/-- C4: whenever the greedy BIC search of `OptimizedKDE.__init__` completes,
it returns an adopted model (not `None`), built at some cluster count k₀ with
`bic k₀ ≥ bic 1`: the chosen model's BIC is never below the k = 1 model's
BIC.  The search starts at k = 1 with best score -∞, adopts a candidate only
on a strict improvement, and stops at the first non-improving k without
adopting it (all per the definition of `optimizeLoop`). -/
theorem optimizedKDE_bic_ge_k1 (bic : ℕ → ℚ) (fuel : ℕ) (r : Option ℕ)
    (hrun : optimizedKDE bic fuel = some r) :
    ∃ k₀, r = some k₀ ∧ bic 1 ≤ bic k₀ :=
  optimizeLoop_sound bic fuel .negInf none 1 r (Or.inl ⟨rfl, rfl, rfl⟩) hrun

/-- Witness for C4: with BIC scores 0, -1, -2, … the search adopts k = 1,
rejects k = 2 and stops, returning the k = 1 model. -/
theorem optimizedKDE_bic_ge_k1_witness :
    optimizedKDE (fun k => -(k : ℚ)) 10 = some (some 1) ∧
      ∃ k₀, (some 1 : Option ℕ) = some k₀ ∧ -(1 : ℚ) ≤ -(k₀ : ℚ) := by
  refine ⟨by decide, optimizedKDE_bic_ge_k1 (fun k => -(k : ℚ)) 10 (some 1) (by decide)⟩

/-! ### C10: every chosen cluster index lies in `[0, k)` -/

theorem cumsum_go_length (xs : List ℚ) : ∀ acc, (cumsum.go acc xs).length = xs.length := by
  induction xs with
  | nil => intro acc; rfl
  | cons x xs ih => intro acc; simp [cumsum.go, ih]

/-- The running total reaches the full sum: `acc + xs.sum` is an entry of the
cumulative-sum list started at `acc` (its last entry, in fact). -/
theorem cumsum_go_total_mem (xs : List ℚ) (hne : xs ≠ []) :
    ∀ acc, acc + xs.sum ∈ cumsum.go acc xs := by
  induction xs with
  | nil => exact absurd rfl hne
  | cons x xs ih =>
    intro acc
    rcases List.eq_nil_or_concat xs with h | _
    · subst h; simp [cumsum.go]
    · rcases List.eq_nil_or_concat xs with h | hcat
      · subst h; simp [cumsum.go]
      · have hne2 : xs ≠ [] := by
          rcases hcat with ⟨l, a, rfl⟩; simp
        have := ih hne2 (acc + x)
        rw [cumsum.go]
        refine List.mem_cons.mpr (Or.inr ?_)
        simpa [add_assoc] using this

theorem countP_lt_length_of_exists {α : Type} (p : α → Bool) (l : List α)
    (a : α) (ha : a ∈ l) (hpa : p a = false) : l.countP p < l.length := by
  induction l with
  | nil => cases ha
  | cons x xs ih =>
    rcases List.mem_cons.mp ha with rfl | haxs
    · rw [List.countP_cons, hpa]
      simpa using Nat.lt_succ_of_le (List.countP_le_length p)
    · rw [List.countP_cons]
      rcases h : p x with _ | _
      · simpa using Nat.lt_succ_of_le (Nat.le_of_lt (ih haxs))
      · simpa using Nat.succ_lt_succ (ih haxs)

/-- C10: in `ClusteredKDE.draw`, when the exponentiated log-weights sum to 1
and the uniform draw `v` lies in `[0, 1)`, the cluster index found by
`searchsorted` on the cumulative weights is in `[0, k)` — so each returned
row is filled by exactly one cluster's estimator and none is left
unassigned. -/
theorem assignCluster_lt_k (w : List ℚ) (v : ℚ)
    (hsum : w.sum = 1) (h0 : 0 ≤ v) (h1 : v < 1) :
    assignCluster w v < w.length ∧
      ∃! c, assignCluster w v = c ∧ c < w.length := by
  have hne : w ≠ [] := by
    intro h; rw [h] at hsum; simp at hsum
  have hmem : (1 : ℚ) ∈ cumsum w := by
    have := cumsum_go_total_mem w hne 0
    rw [zero_add, hsum] at this
    exact this
  have hlt : assignCluster w v < w.length := by
    have hfalse : (fun t => decide (t < v)) (1 : ℚ) = false := by
      simpa using not_lt_of_gt h1
    have := countP_lt_length_of_exists (fun t => decide (t < v)) (cumsum w) 1 hmem hfalse
    unfold assignCluster searchsorted
    unfold cumsum at this ⊢
    rwa [cumsum_go_length] at this
  exact ⟨hlt, ⟨assignCluster w v, ⟨rfl, hlt⟩, fun c hc => hc.1.symm⟩⟩

/-- Witness for C10: weights (1/2, 1/2), uniform draw 3/4 — cluster 1 of 2. -/
theorem assignCluster_lt_k_witness :
    ([(1 : ℚ)/2, 1/2].sum = 1 ∧ (0 : ℚ) ≤ 3/4 ∧ (3 : ℚ)/4 < 1) ∧
      (assignCluster [(1 : ℚ)/2, 1/2] (3/4) < 2 ∧
        ∃! c, assignCluster [(1 : ℚ)/2, 1/2] (3/4) = c ∧ c < 2) := by
  refine ⟨by norm_num, ?_⟩
  simpa using assignCluster_lt_k [(1 : ℚ)/2, 1/2] (3/4) (by norm_num) (by norm_num) (by norm_num)

/-! ### C9: coloring is the exact inverse of whitening -/

/-- C9: when no stored standard deviation is zero, `_color` and `_whiten` are
mutually inverse on every D-vector; `logpdf` evaluates the whitened-space
density on whitened inputs, and `draw` colors whitened-space draws, so
whitening a drawn batch recovers exactly the whitened-space draws. -/
theorem color_whiten_inverse {D : ℕ} (mean std : Fin D → ℚ) (h : ∀ i, std i ≠ 0) :
    (∀ x, color mean std (whiten mean std x) = x) ∧
      (∀ x, whiten mean std (color mean std x) = x) ∧
      (∀ wpdf X, clusteredLogpdfVia mean std wpdf X = (X.map (whiten mean std)).map wpdf) ∧
      (∀ ds, (clusteredDraw mean std ds).map (whiten mean std) = ds) := by
  have hcw : ∀ x, color mean std (whiten mean std x) = x := by
    intro x; funext i
    simp only [color, whiten]
    rw [div_mul_cancel₀ _ (h i), sub_add_cancel]
  have hwc : ∀ x, whiten mean std (color mean std x) = x := by
    intro x; funext i
    simp only [color, whiten]
    rw [add_sub_cancel_right, mul_div_cancel_right₀ _ (h i)]
  refine ⟨hcw, hwc, ?_, ?_⟩
  · intro wpdf X
    simp [clusteredLogpdfVia]
  · intro ds
    simp only [clusteredDraw, List.map_map]
    have : (whiten mean std ∘ color mean std) = id := funext hwc
    rw [this, List.map_id]

/-- Witness for C9: D = 1, mean 3, std 2 (nonzero), point 7. -/
theorem color_whiten_inverse_witness :
    (∀ i : Fin 1, ((fun _ => (2 : ℚ)) : Fin 1 → ℚ) i ≠ 0) ∧
      color ((fun _ => 3) : Fin 1 → ℚ) (fun _ => 2)
          (whiten (fun _ => 3) (fun _ => 2) (fun _ => 7)) =
        ((fun _ => 7) : Fin 1 → ℚ) := by
  have h : ∀ i : Fin 1, ((fun _ => (2 : ℚ)) : Fin 1 → ℚ) i ≠ 0 := fun _ => by norm_num
  exact ⟨h, (color_whiten_inverse ((fun _ => 3) : Fin 1 → ℚ) (fun _ => 2) h).1 (fun _ => 7)⟩

/-! ### C5: cluster log-weights are `log(Nc/N)` and exponentiate-sum to 1 -/

/-- When every assigned cluster id is below `k`, the per-cluster counts over
`0 .. k-1` add up to the total number of points. -/
theorem sum_count_eq_length (assign : List ℕ) (k : ℕ)
    (hmem : ∀ a ∈ assign, a < k) :
    ∑ c ∈ Finset.range k, assign.count c = assign.length := by
  induction assign with
  | nil => simp
  | cons a l ih =>
    have ha : a ∈ Finset.range k := Finset.mem_range.mpr (hmem a (List.mem_cons_self a l))
    have hl : ∀ b ∈ l, b < k := fun b hb => hmem b (List.mem_cons_of_mem a hb)
    calc ∑ c ∈ Finset.range k, (a :: l).count c
        = ∑ c ∈ Finset.range k, (l.count c + if a = c then 1 else 0) := by
          refine Finset.sum_congr rfl fun c _ => ?_
          simp [List.count_cons]
      _ = l.length + 1 := by
          rw [Finset.sum_add_distrib, ih hl, Finset.sum_ite_eq (Finset.range k) a fun _ => 1,
            if_pos ha]
      _ = (a :: l).length := by simp

/-- C5: in a successfully constructed `ClusteredKDE` (every cluster id below
`k`, every cluster nonempty, at least one point), each cluster's log-weight
is `log(Nc / N)` and the exponentiated log-weights sum to 1. -/
theorem logweights_sum_to_one (assign : List ℕ) (k : ℕ)
    (hmem : ∀ a ∈ assign, a < k) (hpos : ∀ c < k, 0 < assign.count c)
    (hne : assign ≠ []) :
    (∀ c, logweight assign c = Real.log ((assign.count c : ℝ) / (assign.length : ℝ))) ∧
      ∑ c ∈ Finset.range k, Real.exp (logweight assign c) = 1 := by
  refine ⟨fun c => rfl, ?_⟩
  have hN : (0 : ℝ) < (assign.length : ℝ) := by
    have := List.length_pos.mpr hne
    exact_mod_cast this
  have hterm : ∀ c ∈ Finset.range k,
      Real.exp (logweight assign c) = (assign.count c : ℝ) / (assign.length : ℝ) := by
    intro c hc
    have hcnt : (0 : ℝ) < (assign.count c : ℝ) := by
      exact_mod_cast hpos c (Finset.mem_range.mp hc)
    exact Real.exp_log (div_pos hcnt hN)
  rw [Finset.sum_congr rfl hterm, ← Finset.sum_div]
  rw [div_eq_one_iff_eq (ne_of_gt hN)]
  exact_mod_cast sum_count_eq_length assign k hmem

/-- Witness for C5: assignments (0, 1, 0, 1) with k = 2 — weights 1/2, 1/2. -/
theorem logweights_sum_to_one_witness :
    ((∀ a ∈ [0, 1, 0, 1], a < 2) ∧ (∀ c < 2, 0 < [0, 1, 0, 1].count c) ∧
        [0, 1, 0, 1] ≠ ([] : List ℕ)) ∧
      ((∀ c, logweight [0, 1, 0, 1] c =
          Real.log (([0, 1, 0, 1].count c : ℝ) / (([0, 1, 0, 1] : List ℕ).length : ℝ))) ∧
        ∑ c ∈ Finset.range 2, Real.exp (logweight [0, 1, 0, 1] c) = 1) := by
  refine ⟨⟨by decide, by decide, by decide⟩, ?_⟩
  exact logweights_sum_to_one [0, 1, 0, 1] 2 (by decide) (by decide) (by decide)

/-! ### C6: the BIC formula -/

/-- C6: for `k ≥ 1`, `ClusteredKDE.bic()` returns `L - (p/2)·log N` where
`L` is the sum of the whitened mixture log-density over the model's own
whitened training points and `p = k·D + (k−1) + k·D·(D+1)/2` (an exact
natural number: `D·(D+1)` is even). -/
theorem bic_eq_spec_formula {D : ℕ} (data : List (Fin D → ℝ)) (logweights : List ℝ)
    (kdes : List ((Fin D → ℝ) → ℝ)) (k dim : ℕ) (hk : 1 ≤ k) :
    bic data logweights kdes k dim =
      (data.map (whitenedLogpdf logweights kdes)).sum -
        ((k * dim + (k - 1) + k * dim * (dim + 1) / 2 : ℕ) : ℝ) / 2 *
          Real.log (data.length : ℝ) := by
  have hdvd : (2 : ℕ) ∣ k * dim * (dim + 1) := by
    rw [mul_assoc]
    exact Dvd.dvd.mul_left (Even.two_dvd (Nat.even_mul_succ_self dim)) k
  have hcast : ((k * dim + (k - 1) + k * dim * (dim + 1) / 2 : ℕ) : ℝ) =
      (k : ℝ) * (dim : ℝ) + ((k : ℝ) - 1) +
        (k : ℝ) * ((dim : ℝ) + 1) * (dim : ℝ) / 2 := by
    push_cast [Nat.cast_div hdvd (by norm_num : (2 : ℝ) ≠ 0), Nat.cast_sub hk]
    ring
  rw [bic, hcast]

/-! ### C1: the stored log-normalization constant vs the spec's formula

The source writes `2*np.pi ** self._dim`, which Python parses as
`2 · π^dim`, not the `(2π)^dim` of the correct Gaussian normalization the
code's own comment ("Make sure the estimated PDF integrates to 1.0") and
the spec describe.  For `dim = 2` the two differ on every positive
determinant. -/

/-- C1 (refuting the claim): in dimension 2 the stored `_lognorm` is
strictly below — in particular never equal to — the spec's
`log(N · sqrt((2π)^D · det H))`, for every `N ≥ 1` and positive `det H`. -/
theorem lognorm_differs_from_spec (N : ℕ) (detH : ℝ) (hN : 1 ≤ N) (hd : 0 < detH) :
    lognorm N 2 detH < specLognorm N 2 detH ∧
      lognorm N 2 detH ≠ specLognorm N 2 detH := by
  have hπ : (0 : ℝ) < Real.pi := Real.pi_pos
  have hNpos : (0 : ℝ) < (N : ℝ) := by exact_mod_cast hN
  have hin1 : (0 : ℝ) < 2 * Real.pi ^ 2 * detH := by positivity
  have hlt : 2 * Real.pi ^ 2 * detH < (2 * Real.pi) ^ 2 * detH := by
    have : (2 * Real.pi) ^ 2 = 4 * Real.pi ^ 2 := by ring
    rw [this]
    nlinarith
  have hsqrt : Real.sqrt (2 * Real.pi ^ 2 * detH) <
      Real.sqrt ((2 * Real.pi) ^ 2 * detH) :=
    Real.sqrt_lt_sqrt (le_of_lt hin1) hlt
  have harg : (N : ℝ) * Real.sqrt (2 * Real.pi ^ 2 * detH) <
      (N : ℝ) * Real.sqrt ((2 * Real.pi) ^ 2 * detH) :=
    mul_lt_mul_of_pos_left hsqrt hNpos
  have hpos : (0 : ℝ) < (N : ℝ) * Real.sqrt (2 * Real.pi ^ 2 * detH) :=
    mul_pos hNpos (Real.sqrt_pos.mpr hin1)
  have hlog : lognorm N 2 detH < specLognorm N 2 detH := by
    unfold lognorm specLognorm
    exact Real.log_lt_log hpos harg
  exact ⟨hlog, ne_of_lt hlog⟩

/-- Witness for C1: a KDE on N = 2 points in D = 2 dimensions with identity
sample covariance; the bandwidth from Scott's rule has positive determinant,
and the stored `_lognorm` differs from the spec's value there. -/
theorem lognorm_differs_from_spec_witness :
    (1 ≤ 2 ∧ 0 < (kernelCov (1 : Matrix (Fin 2) (Fin 2) ℝ) 2 2).det) ∧
      (lognorm 2 2 (kernelCov (1 : Matrix (Fin 2) (Fin 2) ℝ) 2 2).det <
          specLognorm 2 2 (kernelCov (1 : Matrix (Fin 2) (Fin 2) ℝ) 2 2).det ∧
        lognorm 2 2 (kernelCov (1 : Matrix (Fin 2) (Fin 2) ℝ) 2 2).det ≠
          specLognorm 2 2 (kernelCov (1 : Matrix (Fin 2) (Fin 2) ℝ) 2 2).det) := by
  have hdet : 0 < (kernelCov (1 : Matrix (Fin 2) (Fin 2) ℝ) 2 2).det := by
    rw [kernelCov, Matrix.det_smul, Matrix.det_one, mul_one, Fintype.card_fin]
    positivity
  exact ⟨⟨by norm_num, hdet⟩,
    lognorm_differs_from_spec 2 (kernelCov (1 : Matrix (Fin 2) (Fin 2) ℝ) 2 2).det
      (by norm_num) hdet⟩

/-! ### C2: the sampling factor is upper-triangular and the draw noise
covariance is not H

`scipy.linalg.cholesky` is called without `lower=True`, so the code stores
the upper factor `U` (with `Uᵀ·U = H`); the noise `U·z` added by `draw`
then has covariance `U·Uᵀ`, which differs from `H` whenever `H` is not
diagonal.  Concrete refutation at `H₀ = [[1,1],[1,2]]`. -/

/-- C2 (refuting the claim): at `H₀ = [[1,1],[1,2]]` the stored factor is
`[[1,1],[0,1]]` — a genuine Cholesky factor (`Uᵀ·U = H₀`) that is
upper-triangular, not lower-triangular (`U 0 1 ≠ 0`), and the covariance
`U·Uᵀ` of the noise `drawRow` adds is not `H₀`. -/
theorem choleskyUpper_draw_covariance_wrong :
    choleskyUpper !![(1 : ℝ), 1; 1, 2] = !![1, 1; 0, 1] ∧
      (choleskyUpper !![(1 : ℝ), 1; 1, 2]).transpose * choleskyUpper !![(1 : ℝ), 1; 1, 2] =
        !![(1 : ℝ), 1; 1, 2] ∧
      choleskyUpper !![(1 : ℝ), 1; 1, 2] 0 1 ≠ 0 ∧
      (∀ center z, drawRow (choleskyUpper !![(1 : ℝ), 1; 1, 2]) center z =
        (choleskyUpper !![(1 : ℝ), 1; 1, 2]).mulVec z + center) ∧
      noiseCov (choleskyUpper !![(1 : ℝ), 1; 1, 2]) ≠ !![(1 : ℝ), 1; 1, 2] := by
  have hU : choleskyUpper !![(1 : ℝ), 1; 1, 2] = !![1, 1; 0, 1] := by
    unfold choleskyUpper
    norm_num [Real.sqrt_one]
  refine ⟨hU, ?_, ?_, fun center z => rfl, ?_⟩
  · rw [hU]
    have ht : (!![(1 : ℝ), 1; 0, 1]).transpose = !![1, 0; 1, 1] := by
      ext i j
      fin_cases i <;> fin_cases j <;> simp [Matrix.transpose]
    rw [ht, Matrix.mul_fin_two]
    norm_num
  · rw [hU]
    norm_num
  · rw [noiseCov, hU]
    have ht : (!![(1 : ℝ), 1; 0, 1]).transpose = !![1, 0; 1, 1] := by
      ext i j
      fin_cases i <;> fin_cases j <;> simp [Matrix.transpose]
    rw [ht, Matrix.mul_fin_two]
    intro h
    have h00 := congrArg (fun M => M 0 0) h
    norm_num at h00

/-! ### C3: a constant column does not raise — it whitens to NaN

`_whiten` is pure NumPy arithmetic with no validation: `np.std` of a
constant column is 0, and `(x - mean)/0` with zero numerator is `0/0`, a
NaN, raising nothing.  The claim that construction raises a
validation/degenerate-input failure and never produces NaN is false. -/

/-- C3 (refuting the claim): whitening the 3×1 sample matrix whose single
column is the constant `(5, 5, 5)` completes and returns a column of
non-finite (NaN) entries — no validation failure is raised. -/
theorem whiten_constant_column_nan :
    whitenMatrixFp [[(5 : ℝ), 5, 5]] = [[none, none, none]] := by
  have hm : npMean [(5 : ℝ), 5, 5] = 5 := by
    unfold npMean
    norm_num
  have hs : npStd [(5 : ℝ), 5, 5] = 0 := by
    unfold npStd
    rw [hm]
    norm_num
  simp [whitenMatrixFp, whitenColFp, fpDiv, hs]

/-- C3 amended: for every nonempty constant column, `np.std` is zero and
`_whiten` maps every entry to the non-finite `0/0` — construction performs
no zero-variance validation and the whitened data contains NaN. -/
theorem whiten_constant_column_all_nan (col : List ℝ) (c : ℝ)
    (hne : col ≠ []) (hconst : ∀ x ∈ col, x = c) :
    npStd col = 0 ∧ whitenColFp col = col.map (fun _ => (none : Option ℝ)) := by
  have hlen : (0 : ℝ) < (col.length : ℝ) := by
    exact_mod_cast List.length_pos.mpr hne
  have hsum : col.sum = (col.length : ℝ) * c := by
    clear hne hlen
    induction col with
    | nil => simp
    | cons a l ih =>
      have ha : a = c := hconst a (List.mem_cons_self a l)
      have hl : ∀ x ∈ l, x = c := fun x hx => hconst x (List.mem_cons_of_mem a hx)
      simp only [List.sum_cons, List.length_cons, ih hl, ha]
      push_cast
      ring
  have hmean : npMean col = c := by
    unfold npMean
    rw [hsum, mul_comm, mul_div_assoc, div_self (ne_of_gt hlen), mul_one]
  have hdev : col.map (fun x => (x - npMean col) ^ 2) = col.map (fun _ => (0 : ℝ)) := by
    refine List.map_congr_left fun x hx => ?_
    rw [hmean, hconst x hx, sub_self]
    ring
  have hstd : npStd col = 0 := by
    unfold npStd
    rw [hdev]
    simp
  refine ⟨hstd, ?_⟩
  unfold whitenColFp
  refine List.map_congr_left fun x hx => ?_
  rw [hstd]
  simp [fpDiv]

/-- Witness for amended C3: the constant column `(5, 5, 5)`. -/
theorem whiten_constant_column_all_nan_witness :
    ([(5 : ℝ), 5, 5] ≠ [] ∧ ∀ x ∈ [(5 : ℝ), 5, 5], x = 5) ∧
      (npStd [(5 : ℝ), 5, 5] = 0 ∧
        whitenColFp [(5 : ℝ), 5, 5] =
          [(5 : ℝ), 5, 5].map (fun _ => (none : Option ℝ))) := by
  refine ⟨⟨by simp, by simp⟩, ?_⟩
  exact whiten_constant_column_all_nan [(5 : ℝ), 5, 5] 5 (by simp) (by simp)

/-! ### C8: a one-column query slips through the mixture's shape handling

`KDE.logpdf` always asserts on a mismatched dimension.  But
`ClusteredKDE.logpdf` has no check of its own: a query with one column
against a model of dimension `D ≥ 2` is silently *broadcast* to `(M, D)`
by `_whiten`, every per-cluster assert then passes, and a length-`M`
result vector is returned. -/

/-- C8 (refuting the claim): a 3×1 query against a 2-dimensional fitted
`ClusteredKDE` — dimensions mismatch, yet `logpdf` returns a length-3
result vector instead of failing. -/
theorem clusteredLogpdf_mismatch_returns :
    (1 : ℕ) ≠ 2 ∧ clusteredLogpdfShape 2 3 1 = .ok 3 :=
  ⟨by decide, rfl⟩

/-- C8 amended: a mismatched query dimension always raises the assertion in
`KDE.logpdf`; in `ClusteredKDE.logpdf` it fails too — by broadcast error,
or by per-cluster assert when the model is 1-dimensional — except when the
query has exactly one column, in which case broadcasting silently expands
it and a result vector is returned. -/
theorem logpdfShape_mismatch (D M dq : ℕ) (h : dq ≠ D) :
    kdeLogpdfShape D M dq = .error .assertErr ∧
      clusteredLogpdfShape D M dq =
        (if dq = 1 then .ok M
         else .error (if D = 1 then ShapeErr.assertErr else ShapeErr.broadcastErr)) := by
  constructor
  · simp [kdeLogpdfShape, h]
  · by_cases hdq : dq = 1
    · subst hdq
      have hD : D ≠ 1 := fun hD => h hD.symm
      simp [clusteredLogpdfShape, whitenShape, broadcastCols, kdeLogpdfShape, h, hD]
    · by_cases hD : D = 1
      · subst hD
        simp [clusteredLogpdfShape, whitenShape, broadcastCols, kdeLogpdfShape, h, hdq]
      · simp [clusteredLogpdfShape, whitenShape, broadcastCols, kdeLogpdfShape, h, hdq, hD]

/-- Witness for amended C8: D = 2, M = 3, one-column query. -/
theorem logpdfShape_mismatch_witness :
    (1 : ℕ) ≠ 2 ∧
      (kdeLogpdfShape 2 3 1 = .error .assertErr ∧
        clusteredLogpdfShape 2 3 1 =
          (if (1 : ℕ) = 1 then .ok 3
           else .error (if (2 : ℕ) = 1 then ShapeErr.assertErr else ShapeErr.broadcastErr))) :=
  ⟨by decide, logpdfShape_mismatch 2 3 1 (by decide)⟩

/-! ### C7: pool and sequential evaluation agree, in input order -/

/-- C7: for any worker pool whose `map` satisfies the order-preserving
contract (`pool.map f args = args.map f`), `KDE.logpdf` returns the same
vector with the pool present as with it absent; the vector has one entry
per query point, and the i-th entry is the evaluation of the i-th query
point (normalized) — results in input order. -/
theorem kdeLogpdf_pool_eq_sequential {d : ℕ} (poolMap : PoolMap d)
    (hpool : ∀ f args, poolMap f args = args.map f)
    (data : List (Fin d → ℝ)) (choFactor : Matrix (Fin d) (Fin d) ℝ)
    (lognormStored : ℝ) (X : List (Fin d → ℝ)) :
    kdeLogpdf (some poolMap) data choFactor lognormStored X =
        kdeLogpdf none data choFactor lognormStored X ∧
      (kdeLogpdf none data choFactor lognormStored X).length = X.length ∧
      ∀ i, i < X.length →
        (kdeLogpdf none data choFactor lognormStored X).getD i 0 =
          evaluatePointLogpdf ((X.getD i (fun _ => 0), data, choFactor) : EvalArgs d) -
            lognormStored := by
  have hseq : kdeLogpdf none data choFactor lognormStored X =
      X.map (fun x =>
        evaluatePointLogpdf ((x, data, choFactor) : EvalArgs d) - lognormStored) := by
    simp [kdeLogpdf, kdeLogpdfWithMap, List.map_map, Function.comp_def]
  refine ⟨?_, ?_, ?_⟩
  · rw [hseq]
    simp [kdeLogpdf, kdeLogpdfWithMap, hpool, List.map_map, Function.comp_def]
  · rw [hseq, List.length_map]
  · intro i hi
    rw [hseq]
    have hilen : i < (X.map (fun x =>
        evaluatePointLogpdf ((x, data, choFactor) : EvalArgs d) - lognormStored)).length := by
      simpa using hi
    rw [List.getD_eq_getElem _ _ hilen, List.getElem_map, ← List.getD_eq_getElem _ (fun _ => 0) hi]

/-- Witness for C7: the pool is the builtin `map` itself (which satisfies
the contract definitionally), one query point in dimension 1. -/
theorem kdeLogpdf_pool_eq_sequential_witness :
    (∀ (f : EvalArgs 1 → ℝ) (args : List (EvalArgs 1)), List.map f args = args.map f) ∧
      (kdeLogpdf (some (List.map : PoolMap 1)) ([] : List (Fin 1 → ℝ)) 1 0 [fun _ => 0] =
          kdeLogpdf (none : Option (PoolMap 1)) [] 1 0 [fun _ => 0] ∧
        (kdeLogpdf (none : Option (PoolMap 1)) [] 1 0 [fun _ => 0]).length = 1 ∧
        ∀ i, i < ([(fun _ => 0)] : List (Fin 1 → ℝ)).length →
          (kdeLogpdf (none : Option (PoolMap 1)) [] 1 0 [fun _ => 0]).getD i 0 =
            evaluatePointLogpdf ((([(fun _ => 0)] : List (Fin 1 → ℝ)).getD i (fun _ => 0),
              [], 1) : EvalArgs 1) - 0) := by
  refine ⟨fun f args => rfl, ?_⟩
  simpa using kdeLogpdf_pool_eq_sequential (List.map : PoolMap 1) (fun f args => rfl)
    ([] : List (Fin 1 → ℝ)) 1 0 [fun _ => 0]

/-- Witness for C6: k = 1, D = 1, one training point, weight log 1 = 0. -/
theorem bic_eq_spec_formula_witness :
    1 ≤ 1 ∧
      bic ([fun _ => 0] : List (Fin 1 → ℝ)) [0] [fun _ => 0] 1 1 =
        (([fun _ => 0] : List (Fin 1 → ℝ)).map (whitenedLogpdf [0] [fun _ => 0])).sum -
          ((1 * 1 + (1 - 1) + 1 * 1 * (1 + 1) / 2 : ℕ) : ℝ) / 2 *
            Real.log ((([fun _ => 0] : List (Fin 1 → ℝ)).length : ℝ)) :=
  ⟨le_refl 1,
    bic_eq_spec_formula ([fun _ => 0] : List (Fin 1 → ℝ)) [0] [fun _ => 0] 1 1 (le_refl 1)⟩

end Kombine
